import Mathlib

/-!
Verification of the LordNine boss-timer core (src/main.py).

Shallow embedding conventions:
* Instants are represented as seconds since a reference epoch that falls on a
  Sunday at 00:00:00 local time (the program runs entirely in one fixed-offset
  timezone, Asia/Manila, which has no DST, so aware-datetime arithmetic is
  plain second arithmetic).  `t / 86400 % 7` is the weekday index in the
  program's `days_of_week` order (0 = sunday .. 6 = saturday) and
  `t % 86400 / 60` is the wall-clock minute of day, matching the
  `strftime("%H:%M")` string comparisons (zero-padded strings compare
  lexicographically exactly like the minute-of-day numbers).
* `boss_data` is a Python dict whose values are either boss dicts or the bare
  booleans stored under the `<boss>_notified` sentinel keys; it is modelled as
  an insertion-ordered association list with first-match lookup and
  replace-in-place / append-at-end update, matching dict semantics.
* Raising an exception caught by an outer handler is modelled by an abort flag
  that freezes the remaining state, matching in-place mutation up to the raise.
-/

/-- A weekly spawn slot of a fixed-schedule boss: `day` is the index into the
program's `days_of_week` list (0 = sunday .. 6 = saturday) and `time` is the
wall-clock time of day in minutes, i.e. `HH*60+MM` for the catalog string
`"HH:MM"`. -/
structure Slot where
  day : Nat
  time : Nat
deriving DecidableEq, Repr

/-- One slot's candidate next-occurrence instant, translated from the body of
the `for spawn_info in boss_info["spawn_times"]` loop in
`get_next_spawn_time` (src/main.py lines 301-312):
`days_ahead = idx(spawn_day) - idx(current_weekday)`; add 7 when negative, or
when zero and the slot's `"HH:MM"` string is ≤ `now.strftime("%H:%M")`; the
result is `now + days_ahead` days with the time of day replaced by the slot's
hour:minute (seconds and microseconds zeroed). -/
def slotCandidate (now : Nat) (s : Slot) : Nat :=
  let curDay := now / 86400 % 7
  let nowMin := now % 86400 / 60
  let daysAhead :=
    if s.day < curDay then s.day + 7 - curDay
    else if s.day = curDay ∧ s.time ≤ nowMin then 7
    else s.day - curDay
  (now / 86400 + daysAhead) * 86400 + s.time * 60

/-- The function `get_next_spawn_time` (src/main.py lines 289-314) for a given slot list:
collect every slot's candidate and return `min(spawn_times)`, or `None` for an
empty slot list.  (Python's `min` over a list is a left fold of binary min.) -/
def get_next_spawn_time (slots : List Slot) (now : Nat) : Option Nat :=
  match slots.map (fun s => slotCandidate now s) with
  | [] => none
  | c :: cs => some (cs.foldl min c)

theorem foldl_min_le_init (xs : List Nat) (x : Nat) : xs.foldl min x ≤ x := by
  induction xs generalizing x with
  | nil => simp
  | cons a as ih => exact le_trans (ih (min x a)) (min_le_left _ _)

theorem foldl_min_le {xs : List Nat} {x y : Nat} (h : y ∈ x :: xs) :
    xs.foldl min x ≤ y := by
  induction xs generalizing x with
  | nil => simp at h; simp [h]
  | cons a as ih =>
    simp only [List.mem_cons] at h
    simp only [List.foldl_cons]
    rcases h with h | h | h
    · subst h; exact le_trans (foldl_min_le_init as _) (min_le_left _ _)
    · subst h; exact le_trans (foldl_min_le_init as _) (min_le_right _ _)
    · exact ih (List.mem_cons_of_mem _ h)

theorem foldl_min_mem (xs : List Nat) (x : Nat) : xs.foldl min x ∈ x :: xs := by
  induction xs generalizing x with
  | nil => simp
  | cons a as ih =>
    simp only [List.foldl_cons]
    have hm := ih (min x a)
    simp only [List.mem_cons] at hm ⊢
    rcases hm with h | h
    · rw [h]
      rcases le_total x a with hle | hle
      · left; exact Nat.min_eq_left hle
      · right; left; exact Nat.min_eq_right hle
    · right; right; exact h

/-- Every slot candidate is strictly in the future: a slot whose weekday and
minute coincide with `now` is deferred a full week by the
`spawn_time_str <= current_time.strftime("%H:%M")` comparison, and a slot later
today is strictly after `now`. -/
theorem slotCandidate_gt (now : Nat) (s : Slot) (hd : s.day < 7) :
    now < slotCandidate now s := by
  simp only [slotCandidate]
  split
  · omega
  · split
    · omega
    · omega

/-- On a non-empty valid slot list, `get_next_spawn_time` returns some instant,
that instant is strictly after `now`, and it is the minimum over all slot
candidates (it is a lower bound attained by some slot). -/
theorem get_next_spawn_time_spec (slots : List Slot) (now : Nat)
    (hne : slots ≠ []) (hv : ∀ s ∈ slots, s.day < 7) :
    ∃ ns, get_next_spawn_time slots now = some ns ∧ now < ns ∧
      (∀ s ∈ slots, ns ≤ slotCandidate now s) ∧
      (∃ s ∈ slots, ns = slotCandidate now s) := by
  unfold get_next_spawn_time
  cases hs : slots.map (fun s => slotCandidate now s) with
  | nil => exact absurd (List.map_eq_nil_iff.mp hs) hne
  | cons c cs =>
    refine ⟨cs.foldl min c, rfl, ?_, ?_, ?_⟩
    · have hmem : cs.foldl min c ∈ c :: cs := foldl_min_mem cs c
      rw [← hs] at hmem
      obtain ⟨s, hsmem, hse⟩ := List.mem_map.mp hmem
      rw [← hse]
      exact slotCandidate_gt now s (hv s hsmem)
    · intro s hsmem
      apply foldl_min_le
      rw [← hs]
      exact List.mem_map.mpr ⟨s, hsmem, rfl⟩
    · have hmem : cs.foldl min c ∈ c :: cs := foldl_min_mem cs c
      rw [← hs] at hmem
      obtain ⟨s, hsmem, hse⟩ := List.mem_map.mp hmem
      exact ⟨s, hsmem, hse.symm⟩

/-- If `get_next_spawn_time` returns an instant on a valid slot list, that
instant is strictly after `now` — consequently the re-arm comparison
`next_spawn < current_time` in `check_spawns` (line 599) can never be true. -/
theorem get_next_spawn_time_gt {slots : List Slot} {now ns : Nat}
    (hv : ∀ s ∈ slots, s.day < 7)
    (h : get_next_spawn_time slots now = some ns) : now < ns := by
  have hne : slots ≠ [] := by
    intro he
    subst he
    simp [get_next_spawn_time] at h
  obtain ⟨ns', he, hgt, _, _⟩ := get_next_spawn_time_spec slots now hne hv
  have heq : ns = ns' := by
    rw [h] at he
    exact Option.some.inj he
  rw [heq]
  exact hgt

/-- The `FIXED_BOSSES` catalog (src/main.py lines 170-230), with weekdays as
`days_of_week` indices and times as minutes of day. -/
def FIXED_BOSSES : List (String × List Slot) := [
  ("clemantis", [⟨1, 690⟩, ⟨4, 1140⟩]),
  ("saphirus", [⟨0, 1020⟩, ⟨2, 690⟩]),
  ("neutro", [⟨2, 1140⟩, ⟨4, 690⟩]),
  ("thymele", [⟨1, 1140⟩, ⟨3, 690⟩]),
  ("milavy", [⟨6, 900⟩]),
  ("ringor", [⟨6, 1020⟩]),
  ("roderick", [⟨5, 1140⟩]),
  ("auraq", [⟨0, 1260⟩, ⟨3, 1260⟩]),
  ("chaiflock", [⟨6, 1320⟩])
]

/-- The `REGULAR_BOSSES` catalog (src/main.py lines 145-168): respawn hours and
location per boss. -/
def REGULAR_BOSSES : List (String × Nat × String) := [
  ("amentis", 29, "Land of Glory"),
  ("araneo", 24, "Tyriosa 1F"),
  ("asta", 62, "Silvergrass Field"),
  ("baron", 32, "Battlefield of Templar"),
  ("catena", 35, "Deadman 3F"),
  ("duplican", 48, "Plateau of Revolution"),
  ("ego", 21, "Ulan Canyon"),
  ("gareth", 32, "Deadman 1F"),
  ("general", 29, "Tyriosa 2F"),
  ("lady", 18, "Twilight Hill"),
  ("larba", 35, "Ruins of the War"),
  ("livera", 24, "Protector's Ruins"),
  ("metus", 48, "Plateau of Revolution"),
  ("ordo", 62, "Silvergrass Field"),
  ("secreta", 62, "Silvergrass Field"),
  ("shuliar", 35, "Ruins of the War"),
  ("supore", 62, "Silvergrass Field"),
  ("titore", 37, "Deadman 2F"),
  ("undomiel", 24, "Secret Lab"),
  ("venatus", 10, "Corrupted Basin"),
  ("viorent", 10, "Crescent Lake"),
  ("wannitas", 48, "Plateau of Revolution")
]

/-- A catalog (slot lists) is well formed when every boss has at least one slot
and every slot's weekday is a valid `days_of_week` index. -/
def validCatalog (cat : List (String × List Slot)) : Prop :=
  ∀ c ∈ cat, c.2 ≠ [] ∧ ∀ s ∈ c.2, s.day < 7

/-- A regular-boss record as created by `report_kill` / `report_kill_manual`
and consumed by `check_spawns` (instants in seconds). -/
structure BossRec where
  spawn_time : Nat
  kill_time : Nat
  notified : Bool
  location : String
  rtype : String
deriving DecidableEq, Repr

/-- A value of the `boss_data` dict: either a boss dict or one of the bare
booleans stored under `<boss>_notified` sentinel keys. -/
inductive BEntry where
  | record (r : BossRec)
  | boolVal (b : Bool)
deriving DecidableEq, Repr

/-- The `boss_data` store, as an insertion-ordered association list (Python dict). -/
abbrev StateMap := List (String × BEntry)

/-- First-match lookup, i.e. Python `d[k]` / `d.get(k)` on a dict with unique
keys (on lists with duplicate keys it sees the first binding, like a dict that
never had the duplicate). -/
def dictGet : StateMap → String → Option BEntry
  | [], _ => none
  | (k', v') :: rest, k => if k' = k then some v' else dictGet rest k

/-- Python `d[k] = v`: replace the value of an existing key in place, else
append the new binding at the end (dict insertion order). -/
def dictSet : StateMap → String → BEntry → StateMap
  | [], k, v => [(k, v)]
  | (k', v') :: rest, k, v =>
    if k' = k then (k, v) :: rest else (k', v') :: dictSet rest k v

/-- Python `boss_data.get(key, False)` coerced to truthiness: an absent key is falsy,
a stored boolean is itself, a stored (non-empty) dict is truthy. -/
def getFlag (st : StateMap) (k : String) : Bool :=
  match dictGet st k with
  | some (BEntry.boolVal b) => b
  | some (BEntry.record _) => true
  | none => false

/-- No sentinel booleans present in the map (all values are boss dicts). -/
def cleanState (st : StateMap) : Prop :=
  ∀ k b, (k, BEntry.boolVal b) ∉ st

/-- Every value in the (tail) list is a bare boolean. -/
def allBool (st : StateMap) : Prop :=
  ∀ kv ∈ st, ∃ b, kv.2 = BEntry.boolVal b

/-- The regular-boss notification pass of `check_spawns` (src/main.py lines
541-563), iterating `boss_data` in order.  `boss_info.get("type")` on a bare
boolean raises `AttributeError`, caught only by the function's outer handler:
modelled by the third component `true` (aborted), freezing the rest of the
map.  Within the lead window (`current_time < spawn_time ≤ current_time +
10min`) with the `notified` flag down, the alert is sent; on send success the
flag is raised (`sendOk` models whether `channel.send` succeeds; a failed send
is caught by the inner handler and commits nothing). -/
def regularPass (sendOk : Bool) (now : Nat) :
    StateMap → StateMap × List String × Bool
  | [] => ([], [], false)
  | (k, BEntry.boolVal b) :: rest => ((k, BEntry.boolVal b) :: rest, [], true)
  | (k, BEntry.record r) :: rest =>
    if r.rtype = "regular" ∧ now < r.spawn_time ∧ r.spawn_time ≤ now + 600 ∧
        r.notified = false then
      if sendOk then
        let p := regularPass sendOk now rest
        ((k, BEntry.record { r with notified := true }) :: p.1, k :: p.2.1, p.2.2)
      else
        let p := regularPass sendOk now rest
        ((k, BEntry.record r) :: p.1, p.2.1, p.2.2)
    else
      let p := regularPass sendOk now rest
      ((k, BEntry.record r) :: p.1, p.2.1, p.2.2)

/-- The fixed-boss notification pass of `check_spawns` (src/main.py lines
565-590): for each catalog boss recompute the next spawn, read the sentinel
`<boss>_notified` via `boss_data.get(key, False)`, and inside the lead window
with the flag down send the alert; on success store `True` under the sentinel
key. -/
def fixedPass (sendOk : Bool) (now : Nat) (st : StateMap) :
    List (String × List Slot) → StateMap × List String
  | [] => (st, [])
  | c :: cs =>
    match get_next_spawn_time c.2 now with
    | none => fixedPass sendOk now st cs
    | some ns =>
      if now < ns ∧ ns ≤ now + 600 ∧ getFlag st (c.1 ++ "_notified") = false then
        if sendOk then
          let p := fixedPass sendOk now (dictSet st (c.1 ++ "_notified") (BEntry.boolVal true)) cs
          (p.1, c.1 :: p.2)
        else fixedPass sendOk now st cs
      else fixedPass sendOk now st cs

/-- The regular-boss re-arm pass of `check_spawns` (src/main.py lines 592-595):
for every dict entry of type `"regular"` whose spawn time has passed, lower the
`notified` flag.  `boss_info.get("type")` on a sentinel boolean raises, caught
by the outer handler: `true` aborts, freezing the rest. -/
def regResetPass (now : Nat) : StateMap → StateMap × Bool
  | [] => ([], false)
  | (k, BEntry.boolVal b) :: rest => ((k, BEntry.boolVal b) :: rest, true)
  | (k, BEntry.record r) :: rest =>
    let r' := if r.rtype = "regular" ∧ r.spawn_time < now then
        { r with notified := false } else r
    let p := regResetPass now rest
    ((k, BEntry.record r') :: p.1, p.2)

/-- The fixed-boss re-arm pass of `check_spawns` (src/main.py lines 597-600):
for each catalog boss, if the recomputed next spawn is strictly in the past,
store `False` under the sentinel key. -/
def fixedResetPass (now : Nat) (st : StateMap) :
    List (String × List Slot) → StateMap
  | [] => st
  | c :: cs =>
    match get_next_spawn_time c.2 now with
    | none => fixedResetPass now st cs
    | some ns =>
      if ns < now then
        fixedResetPass now (dictSet st (c.1 ++ "_notified") (BEntry.boolVal false)) cs
      else fixedResetPass now st cs

/-- One `check_spawns` tick (src/main.py lines 529-603), with the notification
channel available: the two notification passes then the two re-arm passes, in
source order; an uncaught `AttributeError` in a dict-iterating pass lands in
the outer `except`, ending the tick with the state as mutated so far.  Returns
the updated `boss_data` and the list of boss names for which an alert was
delivered. -/
def check_spawns (cat : List (String × List Slot)) (sendOk : Bool)
    (st : StateMap) (now : Nat) : StateMap × List String :=
  let p1 := regularPass sendOk now st
  if p1.2.2 then (p1.1, p1.2.1)
  else
    let p2 := fixedPass sendOk now p1.1 cat
    let p3 := regResetPass now p2.1
    if p3.2 then (p3.1, p1.2.1 ++ p2.2)
    else (fixedResetPass now p3.1 cat, p1.2.1 ++ p2.2)

theorem dictGet_dictSet_self (st : StateMap) (k : String) (v : BEntry) :
    dictGet (dictSet st k v) k = some v := by
  induction st with
  | nil => simp [dictSet, dictGet]
  | cons hd tl ih =>
    obtain ⟨k', v'⟩ := hd
    by_cases h : k' = k
    · subst h; simp [dictSet, dictGet]
    · simp [dictSet, dictGet, h, ih]

theorem dictGet_dictSet_ne {k k' : String} (st : StateMap) (v : BEntry)
    (h : k' ≠ k) : dictGet (dictSet st k' v) k = dictGet st k := by
  induction st with
  | nil => simp [dictSet, dictGet, h]
  | cons hd tl ih =>
    obtain ⟨k0, v0⟩ := hd
    by_cases h0 : k0 = k'
    · subst h0; simp [dictSet, dictGet, h]
    · simp only [dictSet, if_neg h0]
      by_cases h1 : k0 = k
      · subst h1; simp [dictGet]
      · simp [dictGet, h1, ih]

theorem mem_dictSet {st : StateMap} {k' : String} {v : BEntry}
    {kv : String × BEntry} (h : kv ∈ dictSet st k' v) :
    kv ∈ st ∨ kv = (k', v) := by
  induction st with
  | nil => simp [dictSet] at h; simp [h]
  | cons hd tl ih =>
    obtain ⟨k0, v0⟩ := hd
    by_cases h0 : k0 = k'
    · subst h0
      rw [show dictSet ((k0, v0) :: tl) k0 v = (k0, v) :: tl by
        simp [dictSet]] at h
      rcases List.mem_cons.mp h with h1 | h1
      · right; exact h1
      · left; exact List.mem_cons_of_mem _ h1
    · rw [show dictSet ((k0, v0) :: tl) k' v = (k0, v0) :: dictSet tl k' v by
        simp [dictSet, h0]] at h
      rcases List.mem_cons.mp h with h1 | h1
      · left; simp [h1]
      · rcases ih h1 with h2 | h2
        · left; exact List.mem_cons_of_mem _ h2
        · right; exact h2

theorem mem_of_dictGet {st : StateMap} {k : String} {v : BEntry}
    (h : dictGet st k = some v) : (k, v) ∈ st := by
  induction st with
  | nil => simp [dictGet] at h
  | cons hd tl ih =>
    obtain ⟨k0, v0⟩ := hd
    by_cases h0 : k0 = k
    · subst h0
      simp only [dictGet, if_pos rfl] at h
      simp [Option.some.inj h]
    · simp only [dictGet, if_neg h0] at h
      exact List.mem_cons_of_mem _ (ih h)

theorem dictGet_of_mem_nodup {st : StateMap} {k : String} {v : BEntry}
    (hn : (st.map Prod.fst).Nodup) (h : (k, v) ∈ st) :
    dictGet st k = some v := by
  induction st with
  | nil => simp at h
  | cons hd tl ih =>
    obtain ⟨k0, v0⟩ := hd
    simp only [List.map_cons, List.nodup_cons] at hn
    rcases List.mem_cons.mp h with h1 | h1
    · rw [show k0 = k from congrArg Prod.fst h1.symm] at hn ⊢
      have : v0 = v := congrArg Prod.snd h1.symm
      simp [dictGet, this]
    · have hk : k0 ≠ k := by
        intro he
        exact hn.1 (he ▸ List.mem_map.mpr ⟨(k, v), h1, rfl⟩)
      simp [dictGet, hk, ih hn.2 h1]

theorem dictGet_append_left {A B : StateMap} {k : String} {v : BEntry}
    (h : dictGet A k = some v) : dictGet (A ++ B) k = some v := by
  induction A with
  | nil => simp [dictGet] at h
  | cons hd tl ih =>
    obtain ⟨k0, v0⟩ := hd
    by_cases h0 : k0 = k
    · subst h0
      have hv : v0 = v := by simpa [dictGet] using h
      simp [dictGet, hv]
    · simp only [dictGet, if_neg h0] at h
      simp [dictGet, h0, ih h]

theorem dictGet_append_none {A B : StateMap} {k : String}
    (h : dictGet A k = none) : dictGet (A ++ B) k = dictGet B k := by
  induction A with
  | nil => simp
  | cons hd tl ih =>
    obtain ⟨k0, v0⟩ := hd
    by_cases h0 : k0 = k
    · subst h0; simp [dictGet] at h
    · simp only [dictGet, if_neg h0] at h
      simp [dictGet, h0, ih h]

theorem dictSet_append_of_none {A : StateMap} {k : String}
    (h : dictGet A k = none) (B : StateMap) (v : BEntry) :
    dictSet (A ++ B) k v = A ++ dictSet B k v := by
  induction A with
  | nil => simp
  | cons hd tl ih =>
    obtain ⟨k0, v0⟩ := hd
    by_cases h0 : k0 = k
    · subst h0; simp [dictGet] at h
    · simp only [dictGet, if_neg h0] at h
      simp [dictSet, h0, ih h]

theorem dictSet_allBool {B : StateMap} {k : String} {b : Bool}
    (h : allBool B) : allBool (dictSet B k (BEntry.boolVal b)) := by
  intro kv hm
  rcases mem_dictSet hm with h1 | h1
  · exact h kv h1
  · exact ⟨b, congrArg Prod.snd h1⟩

theorem clean_dictGet {st : StateMap} {k : String} {v : BEntry}
    (hc : cleanState st) (h : dictGet st k = some v) : ∃ r, v = BEntry.record r := by
  cases v with
  | record r => exact ⟨r, rfl⟩
  | boolVal b => exact absurd (mem_of_dictGet h) (hc k b)

/-- The effect of the regular notification pass on one boss dict. -/
def regStep (ok : Bool) (now : Nat) (r : BossRec) : BossRec :=
  if r.rtype = "regular" ∧ now < r.spawn_time ∧ r.spawn_time ≤ now + 600 ∧
      r.notified = false ∧ ok = true then { r with notified := true } else r

/-- The effect of the regular notification pass on one `boss_data` value. -/
def bStep (ok : Bool) (now : Nat) : BEntry → BEntry
  | BEntry.record r => BEntry.record (regStep ok now r)
  | BEntry.boolVal b => BEntry.boolVal b

/-- Whether the regular pass delivers an alert for this `boss_data` value. -/
def sendsFor (ok : Bool) (now : Nat) : BEntry → Bool
  | BEntry.record r =>
    decide (r.rtype = "regular" ∧ now < r.spawn_time ∧ r.spawn_time ≤ now + 600 ∧
      r.notified = false ∧ ok = true)
  | BEntry.boolVal _ => false

/-- On a sentinel-free map the regular pass never aborts: it maps every dict
through `regStep` and sends exactly for the entries in the lead window. -/
theorem regularPass_clean {ok : Bool} {now : Nat} {st : StateMap}
    (hc : cleanState st) :
    regularPass ok now st =
      (st.map (fun kv => (kv.1, bStep ok now kv.2)),
       st.filterMap (fun kv => if sendsFor ok now kv.2 then some kv.1 else none),
       false) := by
  induction st with
  | nil => simp [regularPass]
  | cons hd tl ih =>
    obtain ⟨k, v⟩ := hd
    have hctl : cleanState tl := fun k1 b1 h1 => hc k1 b1 (List.mem_cons_of_mem _ h1)
    cases v with
    | boolVal b => exact absurd (List.mem_cons_self _ _) (hc k b)
    | record r =>
      by_cases hcond : r.rtype = "regular" ∧ now < r.spawn_time ∧
          r.spawn_time ≤ now + 600 ∧ r.notified = false
      · by_cases hok : ok = true
        · subst hok
          simp only [regularPass, if_pos hcond, if_pos rfl, ih hctl]
          simp [bStep, regStep, sendsFor, hcond]
        · have hok' : ok = false := by
            cases ok
            · rfl
            · exact absurd rfl hok
          subst hok'
          simp only [regularPass, if_pos hcond, Bool.false_eq_true, if_neg hok,
            ih hctl]
          simp [bStep, regStep, sendsFor, hcond]
      · simp only [regularPass, if_neg hcond, ih hctl]
        have hstep : regStep ok now r = r := by
          unfold regStep
          rw [if_neg]
          intro hcc
          exact hcond ⟨hcc.1, hcc.2.1, hcc.2.2.1, hcc.2.2.2.1⟩
        have hsend : sendsFor ok now (BEntry.record r) = false := by
          unfold sendsFor
          simp only [decide_eq_false_iff_not]
          intro hcc
          exact hcond ⟨hcc.1, hcc.2.1, hcc.2.2.1, hcc.2.2.2.1⟩
        simp [bStep, hstep, hsend]

/-- A sentinel boolean anywhere in `boss_data` makes the regular pass abort
(the `AttributeError` of `.get` on a bool). -/
theorem regularPass_abort_of_mem {ok : Bool} {now : Nat} {st : StateMap}
    {k : String} {b : Bool} (h : (k, BEntry.boolVal b) ∈ st) :
    (regularPass ok now st).2.2 = true := by
  induction st with
  | nil => simp at h
  | cons hd tl ih =>
    obtain ⟨k0, v0⟩ := hd
    cases v0 with
    | boolVal b0 => simp [regularPass]
    | record r0 =>
      have htl : (k, BEntry.boolVal b) ∈ tl := by
        rcases List.mem_cons.mp h with h1 | h1
        · exact absurd (congrArg Prod.snd h1) (by simp)
        · exact h1
      simp only [regularPass]
      split
      · split
        · simpa using ih htl
        · simpa using ih htl
      · simpa using ih htl

/-- Every name in the regular pass's send list comes from a boss dict of type
`"regular"` in the lead window with the flag down, and only when the send
succeeds. -/
theorem regularPass_sends_mem {ok : Bool} {now : Nat} {st : StateMap}
    {k : String} (h : k ∈ (regularPass ok now st).2.1) :
    ∃ r, (k, BEntry.record r) ∈ st ∧ r.rtype = "regular" ∧
      now < r.spawn_time ∧ r.spawn_time ≤ now + 600 ∧ r.notified = false ∧
      ok = true := by
  induction st with
  | nil => simp [regularPass] at h
  | cons hd tl ih =>
    obtain ⟨k0, v0⟩ := hd
    cases v0 with
    | boolVal b0 => simp [regularPass] at h
    | record r0 =>
      simp only [regularPass] at h
      by_cases hcond : r0.rtype = "regular" ∧ now < r0.spawn_time ∧
          r0.spawn_time ≤ now + 600 ∧ r0.notified = false
      · rw [if_pos hcond] at h
        by_cases hok : ok = true
        · rw [if_pos hok] at h
          simp only [List.mem_cons] at h
          rcases h with h | h
          · subst h
            exact ⟨r0, List.mem_cons_self _ _, hcond.1, hcond.2.1, hcond.2.2.1,
              hcond.2.2.2, hok⟩
          · obtain ⟨r, hm, hrest⟩ := ih h
            exact ⟨r, List.mem_cons_of_mem _ hm, hrest⟩
        · rw [if_neg hok] at h
          obtain ⟨r, hm, hrest⟩ := ih h
          exact ⟨r, List.mem_cons_of_mem _ hm, hrest⟩
      · rw [if_neg hcond] at h
        obtain ⟨r, hm, hrest⟩ := ih h
        exact ⟨r, List.mem_cons_of_mem _ hm, hrest⟩

theorem dictGet_map (f : BEntry → BEntry) (st : StateMap) (k : String) :
    dictGet (st.map (fun kv => (kv.1, f kv.2))) k = (dictGet st k).map f := by
  induction st with
  | nil => simp [dictGet]
  | cons hd tl ih =>
    obtain ⟨k0, v0⟩ := hd
    by_cases h0 : k0 = k
    · subst h0; simp [dictGet]
    · simp [dictGet, h0, ih]

theorem filterMap_keys_sublist (st : StateMap) (p : String × BEntry → Bool) :
    (st.filterMap (fun kv => if p kv then some kv.1 else none)).Sublist
      (st.map Prod.fst) := by
  induction st with
  | nil => simp
  | cons hd tl ih =>
    by_cases h : p hd
    · simpa [h] using List.Sublist.cons₂ hd.1 ih
    · simpa [h] using List.Sublist.cons hd.1 ih

/-- The fixed pass never touches a key that is not one of the catalog's
sentinel keys. -/
theorem fixedPass_get_ne {ok : Bool} {now : Nat} {name : String} :
    ∀ (cat : List (String × List Slot)) (st : StateMap),
    (∀ c ∈ cat, c.1 ++ "_notified" ≠ name) →
    dictGet (fixedPass ok now st cat).1 name = dictGet st name := by
  intro cat
  induction cat with
  | nil => intro st h; simp [fixedPass]
  | cons c cs ih =>
    intro st h
    have hc := (h c (List.mem_cons_self _ _))
    have htl : ∀ c ∈ cs, c.1 ++ "_notified" ≠ name :=
      fun c hm => h c (List.mem_cons_of_mem _ hm)
    simp only [fixedPass]
    cases get_next_spawn_time c.2 now with
    | none => exact ih st htl
    | some ns =>
      simp only
      split
      · split
        · simp only
          rw [ih _ htl]
          exact dictGet_dictSet_ne _ _ hc
        · exact ih st htl
      · exact ih st htl

/-- Every name the fixed pass sends is a catalog boss name. -/
theorem fixedPass_sends_mem {ok : Bool} {now : Nat} {k : String} :
    ∀ (cat : List (String × List Slot)) (st : StateMap),
    k ∈ (fixedPass ok now st cat).2 → ∃ c ∈ cat, k = c.1 := by
  intro cat
  induction cat with
  | nil => intro st h; simp [fixedPass] at h
  | cons c cs ih =>
    intro st h
    simp only [fixedPass] at h
    cases hns : get_next_spawn_time c.2 now with
    | none =>
      rw [hns] at h
      obtain ⟨c1, hm, he⟩ := ih st h
      exact ⟨c1, List.mem_cons_of_mem _ hm, he⟩
    | some ns =>
      rw [hns] at h
      simp only at h
      split at h
      · split at h
        · rcases List.mem_cons.mp h with h1 | h1
          · exact ⟨c, List.mem_cons_self _ _, h1⟩
          · obtain ⟨c1, hm, he⟩ := ih _ h1
            exact ⟨c1, List.mem_cons_of_mem _ hm, he⟩
        · obtain ⟨c1, hm, he⟩ := ih st h
          exact ⟨c1, List.mem_cons_of_mem _ hm, he⟩
      · obtain ⟨c1, hm, he⟩ := ih st h
        exact ⟨c1, List.mem_cons_of_mem _ hm, he⟩

/-- Any binding in the fixed pass's output was in the input, unless it is a
freshly written sentinel boolean for a catalog boss. -/
theorem fixedPass_mem {ok : Bool} {now : Nat} {kv : String × BEntry} :
    ∀ (cat : List (String × List Slot)) (st : StateMap),
    kv ∈ (fixedPass ok now st cat).1 →
    kv ∈ st ∨ ∃ c ∈ cat, kv.1 = c.1 ++ "_notified" ∧ ∃ b, kv.2 = BEntry.boolVal b := by
  intro cat
  induction cat with
  | nil => intro st h; left; simpa [fixedPass] using h
  | cons c cs ih =>
    intro st h
    simp only [fixedPass] at h
    cases hns : get_next_spawn_time c.2 now with
    | none =>
      rw [hns] at h
      rcases ih st h with h1 | ⟨c1, hm, he⟩
      · left; exact h1
      · right; exact ⟨c1, List.mem_cons_of_mem _ hm, he⟩
    | some ns =>
      rw [hns] at h
      simp only at h
      split at h
      · split at h
        · simp only at h
          rcases ih _ h with h1 | ⟨c1, hm, he⟩
          · rcases mem_dictSet h1 with h2 | h2
            · left; exact h2
            · right
              refine ⟨c, List.mem_cons_self _ _, ?_, true, ?_⟩
              · exact congrArg Prod.fst h2
              · exact congrArg Prod.snd h2
          · right; exact ⟨c1, List.mem_cons_of_mem _ hm, he⟩
        · rcases ih st h with h1 | ⟨c1, hm, he⟩
          · left; exact h1
          · right; exact ⟨c1, List.mem_cons_of_mem _ hm, he⟩
      · rcases ih st h with h1 | ⟨c1, hm, he⟩
        · left; exact h1
        · right; exact ⟨c1, List.mem_cons_of_mem _ hm, he⟩

/-- On a map shaped "clean prefix ++ boolean tail", the fixed pass only ever
appends or rewrites sentinel booleans in the tail. -/
theorem fixedPass_append {ok : Bool} {now : Nat} :
    ∀ (cat : List (String × List Slot)) (A B : StateMap),
    cleanState A → allBool B →
    ∃ tl, (fixedPass ok now (A ++ B) cat).1 = A ++ tl ∧ allBool tl ∧
      ∀ kv ∈ tl, kv ∈ B ∨ ∃ c ∈ cat, kv.1 = c.1 ++ "_notified" := by
  intro cat
  induction cat with
  | nil =>
    intro A B hA hB
    exact ⟨B, by simp [fixedPass], hB, fun kv h => Or.inl h⟩
  | cons c cs ih =>
    intro A B hA hB
    simp only [fixedPass]
    cases get_next_spawn_time c.2 now with
    | none =>
      obtain ⟨tl, h1, h2, h3⟩ := ih A B hA hB
      exact ⟨tl, h1, h2, fun kv h => (h3 kv h).imp id
        (fun ⟨c1, hm, he⟩ => ⟨c1, List.mem_cons_of_mem _ hm, he⟩)⟩
    | some ns =>
      simp only
      split
      · rename_i hcond
        split
        · simp only
          have hAnone : dictGet A (c.1 ++ "_notified") = none := by
            cases hga : dictGet A (c.1 ++ "_notified") with
            | none => rfl
            | some v =>
              obtain ⟨r, hr⟩ := clean_dictGet hA hga
              subst hr
              have : getFlag (A ++ B) (c.1 ++ "_notified") = true := by
                unfold getFlag
                rw [dictGet_append_left hga]
              rw [hcond.2.2] at this
              exact absurd this (by simp)
          rw [dictSet_append_of_none hAnone]
          obtain ⟨tl, h1, h2, h3⟩ := ih A _ hA (dictSet_allBool hB)
          refine ⟨tl, h1, h2, fun kv h => ?_⟩
          rcases h3 kv h with h4 | ⟨c1, hm, he⟩
          · rcases mem_dictSet h4 with h5 | h5
            · exact Or.inl h5
            · exact Or.inr ⟨c, List.mem_cons_self _ _, congrArg Prod.fst h5⟩
          · exact Or.inr ⟨c1, List.mem_cons_of_mem _ hm, he⟩
        · obtain ⟨tl, h1, h2, h3⟩ := ih A B hA hB
          exact ⟨tl, h1, h2, fun kv h => (h3 kv h).imp id
            (fun ⟨c1, hm, he⟩ => ⟨c1, List.mem_cons_of_mem _ hm, he⟩)⟩
      · obtain ⟨tl, h1, h2, h3⟩ := ih A B hA hB
        exact ⟨tl, h1, h2, fun kv h => (h3 kv h).imp id
          (fun ⟨c1, hm, he⟩ => ⟨c1, List.mem_cons_of_mem _ hm, he⟩)⟩

/-- The effect of the regular re-arm pass on one boss dict. -/
def rrStep (now : Nat) (r : BossRec) : BossRec :=
  if r.rtype = "regular" ∧ r.spawn_time < now then { r with notified := false }
  else r

/-- The effect of the regular re-arm pass on one `boss_data` value. -/
def bResetStep (now : Nat) : BEntry → BEntry
  | BEntry.record r => BEntry.record (rrStep now r)
  | BEntry.boolVal b => BEntry.boolVal b

/-- On a map shaped "clean prefix ++ boolean tail", the regular re-arm pass
lowers the flag of every elapsed regular boss in the prefix and then aborts on
the first sentinel boolean (if any), leaving the tail untouched. -/
theorem regResetPass_split (now : Nat) :
    ∀ (A B : StateMap), cleanState A → allBool B →
    regResetPass now (A ++ B) =
      (A.map (fun kv => (kv.1, bResetStep now kv.2)) ++ B, !B.isEmpty) := by
  intro A
  induction A with
  | nil =>
    intro B hA hB
    cases B with
    | nil => simp [regResetPass]
    | cons hd tl =>
      obtain ⟨b, hb⟩ := hB hd (List.mem_cons_self _ _)
      obtain ⟨k0, v0⟩ := hd
      simp only at hb
      subst hb
      simp [regResetPass]
  | cons hd tlA ih =>
    intro B hA hB
    obtain ⟨k0, v0⟩ := hd
    cases v0 with
    | boolVal b => exact absurd (List.mem_cons_self _ _) (hA k0 b)
    | record r =>
      have hAtl : cleanState tlA := fun k1 b1 h1 => hA k1 b1 (List.mem_cons_of_mem _ h1)
      have hrec := ih B hAtl hB
      simp only [List.cons_append, regResetPass, List.append_eq]
      rw [hrec]
      simp [bResetStep, rrStep]

/-- The fixed re-arm pass never touches a key that is not a catalog sentinel
key. -/
theorem fixedResetPass_get_ne {now : Nat} {name : String} :
    ∀ (cat : List (String × List Slot)) (st : StateMap),
    (∀ c ∈ cat, c.1 ++ "_notified" ≠ name) →
    dictGet (fixedResetPass now st cat) name = dictGet st name := by
  intro cat
  induction cat with
  | nil => intro st h; simp [fixedResetPass]
  | cons c cs ih =>
    intro st h
    have hc := h c (List.mem_cons_self _ _)
    have htl : ∀ c ∈ cs, c.1 ++ "_notified" ≠ name :=
      fun c hm => h c (List.mem_cons_of_mem _ hm)
    simp only [fixedResetPass]
    cases get_next_spawn_time c.2 now with
    | none => exact ih st htl
    | some ns =>
      simp only
      split
      · rw [ih _ htl]
        exact dictGet_dictSet_ne _ _ hc
      · exact ih st htl

/-- Any binding in the fixed re-arm pass's output was in the input, unless it
is a sentinel boolean for a catalog boss. -/
theorem fixedResetPass_mem {now : Nat} {kv : String × BEntry} :
    ∀ (cat : List (String × List Slot)) (st : StateMap),
    kv ∈ fixedResetPass now st cat →
    kv ∈ st ∨ ∃ c ∈ cat, kv.1 = c.1 ++ "_notified" ∧ ∃ b, kv.2 = BEntry.boolVal b := by
  intro cat
  induction cat with
  | nil => intro st h; left; simpa [fixedResetPass] using h
  | cons c cs ih =>
    intro st h
    simp only [fixedResetPass] at h
    cases hns : get_next_spawn_time c.2 now with
    | none =>
      rw [hns] at h
      rcases ih st h with h1 | ⟨c1, hm, he⟩
      · left; exact h1
      · right; exact ⟨c1, List.mem_cons_of_mem _ hm, he⟩
    | some ns =>
      rw [hns] at h
      simp only at h
      split at h
      · rcases ih _ h with h1 | ⟨c1, hm, he⟩
        · rcases mem_dictSet h1 with h2 | h2
          · left; exact h2
          · right
            refine ⟨c, List.mem_cons_self _ _, ?_, false, ?_⟩
            · exact congrArg Prod.fst h2
            · exact congrArg Prod.snd h2
        · right; exact ⟨c1, List.mem_cons_of_mem _ hm, he⟩
      · rcases ih st h with h1 | ⟨c1, hm, he⟩
        · left; exact h1
        · right; exact ⟨c1, List.mem_cons_of_mem _ hm, he⟩

/-- On a well-formed catalog the fixed re-arm pass is the identity: the
freshly recomputed occurrence is always strictly in the future, so the
`next_spawn < current_time` guard never fires and no `<boss>_notified`
sentinel is ever reset. -/
theorem fixedResetPass_id {now : Nat} :
    ∀ (cat : List (String × List Slot)) (st : StateMap),
    validCatalog cat → fixedResetPass now st cat = st := by
  intro cat
  induction cat with
  | nil => intro st hv; simp [fixedResetPass]
  | cons c cs ih =>
    intro st hv
    have hc := hv c (List.mem_cons_self _ _)
    have htl : validCatalog cs := fun c hm => hv c (List.mem_cons_of_mem _ hm)
    simp only [fixedResetPass]
    obtain ⟨ns, hns, hgt, _, _⟩ := get_next_spawn_time_spec c.2 now hc.1 hc.2
    rw [hns]
    simp only
    rw [if_neg (by omega)]
    exact ih st htl

/-- Any binding in the regular re-arm pass's output comes from a binding of
the same key in the input, either untouched (after an abort point) or passed
through the re-arm step. -/
theorem regResetPass_mem {now : Nat} {k : String} {e : BEntry} :
    ∀ st : StateMap, (k, e) ∈ (regResetPass now st).1 →
    ∃ e0, (k, e0) ∈ st ∧ (e = e0 ∨ e = bResetStep now e0) := by
  intro st
  induction st with
  | nil => intro h; simp [regResetPass] at h
  | cons hd tl ih =>
    intro h
    obtain ⟨k0, v0⟩ := hd
    cases v0 with
    | boolVal b =>
      simp only [regResetPass] at h
      exact ⟨e, h, Or.inl rfl⟩
    | record r =>
      simp only [regResetPass] at h
      rcases List.mem_cons.mp h with h1 | h1
      · rw [Prod.mk.injEq] at h1
        obtain ⟨hk, he⟩ := h1
        subst hk
        refine ⟨BEntry.record r, List.mem_cons_self _ _, Or.inr ?_⟩
        rw [he]
        simp [bResetStep, rrStep]
      · obtain ⟨e0, hm, he⟩ := ih h1
        exact ⟨e0, List.mem_cons_of_mem _ hm, he⟩

/-- Entry-wise maps that keep boss dicts as boss dicts preserve
sentinel-freeness. -/
theorem cleanState_map {st : StateMap} {f : BEntry → BEntry}
    (hf : ∀ r, ∃ r2, f (BEntry.record r) = BEntry.record r2)
    (hc : cleanState st) :
    cleanState (st.map (fun kv => (kv.1, f kv.2))) := by
  intro k b hm
  obtain ⟨kv0, hm0, he0⟩ := List.mem_map.mp hm
  cases hv : kv0.2 with
  | boolVal b0 =>
    apply hc kv0.1 b0
    have : kv0 = (kv0.1, BEntry.boolVal b0) := by
      rw [← hv]
    rw [← this]
    exact hm0
  | record r0 =>
    obtain ⟨r2, hr2⟩ := hf r0
    have : BEntry.boolVal b = f kv0.2 := (congrArg Prod.snd he0).symm
    rw [hv, hr2] at this
    exact absurd this (by simp)

theorem bStep_false (now : Nat) (e : BEntry) : bStep false now e = e := by
  cases e with
  | record r => simp [bStep, regStep]
  | boolVal b => simp [bStep]

theorem sendsFor_false (now : Nat) (e : BEntry) : sendsFor false now e = false := by
  cases e with
  | record r => simp [sendsFor]
  | boolVal b => simp [sendsFor]

/-- With a failing notification sink the fixed pass commits nothing and sends
nothing. -/
theorem fixedPass_sendFail {now : Nat} :
    ∀ (cat : List (String × List Slot)) (st : StateMap),
    fixedPass false now st cat = (st, []) := by
  intro cat
  induction cat with
  | nil => intro st; simp [fixedPass]
  | cons c cs ih =>
    intro st
    simp only [fixedPass]
    cases get_next_spawn_time c.2 now with
    | none => exact ih st
    | some ns =>
      simp only
      split
      · simp only [Bool.false_eq_true, if_false]
        exact ih st
      · exact ih st

/-- Clemantis's slot list in `FIXED_BOSSES`: Monday 11:30 and Thursday 19:00. -/
def clemantis_slots : List Slot := [⟨1, 690⟩, ⟨4, 1140⟩]

/-- C3 counterexample: with `now` exactly at clemantis's Monday-11:30 slot
instant (127800 = Monday 11:30:00 of week zero), the claim says the coinciding
slot instant itself is the result, i.e. `some 127800`; the code instead defers
that slot a week and returns the other slot, Thursday 19:00 (414000). -/
theorem C3_counterexample :
    FIXED_BOSSES.head? = some ("clemantis", clemantis_slots) ∧
    86400 + 690 * 60 = 127800 ∧
    get_next_spawn_time clemantis_slots 127800 ≠ some 127800 ∧
    get_next_spawn_time clemantis_slots 127800 = some 414000 := by
  refine ⟨rfl, by norm_num, ?_, ?_⟩
  · decide
  · decide

/-- C3 (amended): for every fixed-schedule entity with a non-empty valid slot
list and every `now`, the computed next occurrence exists, is ≥ `now` — in
fact strictly greater, a slot instant coinciding with `now` (to the minute) is
deferred a week — and is the minimum over all slots' candidates. -/
theorem C3_next_occurrence_minimum (slots : List Slot) (now : Nat)
    (hne : slots ≠ []) (hv : ∀ s ∈ slots, s.day < 7) :
    ∃ ns, get_next_spawn_time slots now = some ns ∧ now ≤ ns ∧ now < ns ∧
      (∀ s ∈ slots, ns ≤ slotCandidate now s) ∧
      (∃ s ∈ slots, ns = slotCandidate now s) := by
  obtain ⟨ns, h1, h2, h3, h4⟩ := get_next_spawn_time_spec slots now hne hv
  exact ⟨ns, h1, le_of_lt h2, h2, h3, h4⟩

/-- Witness for C3 (amended) at clemantis's slots and `now` = 100000
(Monday 03:46:40 of week zero; next occurrence is Monday 11:30 = 127800). -/
theorem C3_next_occurrence_minimum_witness :
    ∃ ns, get_next_spawn_time clemantis_slots 100000 = some ns ∧
      100000 ≤ ns ∧ 100000 < ns ∧
      (∀ s ∈ clemantis_slots, ns ≤ slotCandidate 100000 s) ∧
      (∃ s ∈ clemantis_slots, ns = slotCandidate 100000 s) :=
  C3_next_occurrence_minimum clemantis_slots 100000 (by decide) (by decide)

/-- The `boss_data` state after clemantis's Monday-11:30 occurrence (instant 127800) was
notified: only the raised sentinel flag is stored. -/
def clemantisFiredState : StateMap := [("clemantis_notified", BEntry.boolVal true)]

/-- C1's guarantee instantiated at clemantis: after the notified occurrence at
instant 127800 (Monday 11:30 of week zero) has passed, some tick strictly
before the next occurrence's lead window opens (413400 = Thursday 19:00 minus
the 10-minute lead) lowers the sentinel flag again. -/
def C1FixedGuarantee : Prop :=
  ∃ t : Nat, 127800 < t ∧ t < 413400 ∧
    getFlag (check_spawns FIXED_BOSSES true clemantisFiredState t).1
      "clemantis_notified" = false

/-- C1 counterexample: the guarantee fails — no tick between the notified
occurrence and the opening of the next occurrence's lead window ever resets
clemantis's flag.  (Two independent code paths prevent it: the tick aborts on
the sentinel boolean in the regular pass, and even the fixed re-arm pass alone
could never fire because the recomputed occurrence is never in the past.) -/
theorem C1_counterexample : ¬C1FixedGuarantee := by
  rintro ⟨t, h1, h2, h3⟩
  have hstep : check_spawns FIXED_BOSSES true clemantisFiredState t =
      (clemantisFiredState, []) := by
    simp [check_spawns, regularPass, clemantisFiredState]
  rw [hstep] at h3
  simp [getFlag, dictGet, clemantisFiredState] at h3

/-- C1 (amended): the re-arm behaviour differs by entity class.  (1) For
fixed-schedule entities the reset conditional `next_spawn < current_time` is
unsatisfiable — the freshly recomputed occurrence is always strictly in the
future — so the fixed re-arm pass is the identity and a raised sentinel flag
never becomes false again.  (2) For variable-interval (regular) entities, a
tick on a sentinel-free map does lower the `notified` flag of any entity of
type `"regular"` whose stored spawn time is strictly in the past. -/
theorem C1_rearm (cat : List (String × List Slot)) (hv : validCatalog cat) :
    (∀ (st : StateMap) (now : Nat), fixedResetPass now st cat = st) ∧
    (∀ (ok : Bool) (st : StateMap) (now : Nat) (name : String) (r : BossRec),
      cleanState st →
      dictGet st name = some (BEntry.record r) →
      r.rtype = "regular" → r.spawn_time < now →
      (∀ c ∈ cat, c.1 ++ "_notified" ≠ name) →
      dictGet (check_spawns cat ok st now).1 name =
        some (BEntry.record { r with notified := false })) := by
  constructor
  · intro st now
    exact fixedResetPass_id cat st hv
  · intro ok st now name r hc hg ht hsp hcat
    have hA : cleanState (st.map (fun kv => (kv.1, bStep ok now kv.2))) :=
      cleanState_map (fun r0 => ⟨regStep ok now r0, rfl⟩) hc
    simp only [check_spawns, regularPass_clean hc, Bool.false_eq_true, if_false]
    obtain ⟨tl, htl, hbool, _⟩ :=
      fixedPass_append cat (st.map (fun kv => (kv.1, bStep ok now kv.2))) []
        hA (by intro kv h; simp at h)
    rw [List.append_nil] at htl
    rw [htl]
    rw [regResetPass_split now _ tl hA hbool]
    have hstep : regStep ok now r = r := by
      unfold regStep
      rw [if_neg]
      intro hcc
      omega
    have hget1 : dictGet (st.map (fun kv => (kv.1, bStep ok now kv.2))) name =
        some (BEntry.record r) := by
      rw [dictGet_map, hg]
      simp [bStep, hstep]
    have hrr : rrStep now r = { r with notified := false } := by
      unfold rrStep
      rw [if_pos ⟨ht, hsp⟩]
    have hget2 : dictGet ((st.map (fun kv => (kv.1, bStep ok now kv.2))).map
        (fun kv => (kv.1, bResetStep now kv.2))) name =
        some (BEntry.record { r with notified := false }) := by
      rw [dictGet_map, hget1]
      simp [bResetStep, hrr]
    by_cases hemp : tl.isEmpty
    · simp only [hemp, Bool.not_true, Bool.false_eq_true, if_false]
      rw [fixedResetPass_get_ne cat _ hcat]
      exact dictGet_append_left hget2
    · have : (!tl.isEmpty) = true := by
        cases h : tl.isEmpty
        · rfl
        · exact absurd h hemp
      simp only [this, if_true]
      exact dictGet_append_left hget2

/-- Witness for C1 (amended): the real catalog is valid; the fixed re-arm pass
leaves clemantis's raised flag untouched, and a full tick at instant 200 lowers
the flag of a regular boss whose spawn time 100 has passed. -/
theorem C1_rearm_witness :
    fixedResetPass 127801 clemantisFiredState FIXED_BOSSES = clemantisFiredState ∧
    dictGet (check_spawns FIXED_BOSSES true
      [("venatus", BEntry.record ⟨100, 50, true, "Corrupted Basin", "regular"⟩)]
      200).1 "venatus" =
      some (BEntry.record ⟨100, 50, false, "Corrupted Basin", "regular"⟩) := by
  constructor
  · exact (C1_rearm FIXED_BOSSES (by unfold validCatalog; decide)).1 clemantisFiredState 127801
  · exact (C1_rearm FIXED_BOSSES (by unfold validCatalog; decide)).2 true _ 200 "venatus"
      ⟨100, 50, true, "Corrupted Basin", "regular"⟩
      (by intro k b h; simp at h)
      (by decide) rfl (by decide) (by decide)

/-- C10: as soon as `boss_data` holds a sentinel boolean under any key, the
regular-boss pass of a `check_spawns` tick hits `boss_info.get("type")` on a
bool, raising `AttributeError`; the tick's outer handler catches it, so the
tick ends with exactly the regular pass's partial effects — the fixed pass and
both re-arm passes (and any remaining notifications) do not run. -/
theorem C10_sentinel_aborts_tick (cat : List (String × List Slot)) (ok : Bool)
    (st : StateMap) (now : Nat) (k : String) (b : Bool)
    (h : (k, BEntry.boolVal b) ∈ st) :
    (regularPass ok now st).2.2 = true ∧
    check_spawns cat ok st now =
      ((regularPass ok now st).1, (regularPass ok now st).2.1) := by
  have hab : (regularPass ok now st).2.2 = true := regularPass_abort_of_mem h
  refine ⟨hab, ?_⟩
  simp only [check_spawns]
  rw [hab]
  simp

/-- Witness for C10: a map holding clemantis's sentinel `True` and an armed
regular boss inside the lead window; the tick aborts in the regular pass (the
sentinel precedes the boss, so not even its alert is sent). -/
theorem C10_sentinel_aborts_tick_witness :
    (regularPass true 1000
      [("clemantis_notified", BEntry.boolVal true),
       ("venatus", BEntry.record ⟨1300, 500, false, "Corrupted Basin", "regular"⟩)]).2.2 = true ∧
    check_spawns FIXED_BOSSES true
      [("clemantis_notified", BEntry.boolVal true),
       ("venatus", BEntry.record ⟨1300, 500, false, "Corrupted Basin", "regular"⟩)] 1000 =
      ((regularPass true 1000
        [("clemantis_notified", BEntry.boolVal true),
         ("venatus", BEntry.record ⟨1300, 500, false, "Corrupted Basin", "regular"⟩)]).1,
       (regularPass true 1000
        [("clemantis_notified", BEntry.boolVal true),
         ("venatus", BEntry.record ⟨1300, 500, false, "Corrupted Basin", "regular"⟩)]).2.1) :=
  C10_sentinel_aborts_tick FIXED_BOSSES true _ 1000 "clemantis_notified" true
    (by decide)

theorem sendsFor_true {now : Nat} {r : BossRec} (ht : r.rtype = "regular")
    (hw1 : now < r.spawn_time) (hw2 : r.spawn_time ≤ now + 600)
    (hf : r.notified = false) : sendsFor true now (BEntry.record r) = true := by
  unfold sendsFor
  exact decide_eq_true ⟨ht, hw1, hw2, hf, rfl⟩

/-- C4 counterexample: the dedup guarantee fails as soon as `boss_data` also
holds a fixed-boss sentinel boolean stored before the armed entity — a
reachable state, since any kill reported after a fixed-boss notification
appends the boss dict after the sentinel.  Here venatus satisfies the claim's
premise (stored, type `"regular"`, flag down, occurrence 1300 strictly inside
the lead window of the tick at 1000), yet the tick aborts on the sentinel
before reaching it: zero notifications are emitted for venatus (not one) and
its flag is not set. -/
theorem C4_counterexample :
    dictGet
      [("clemantis_notified", BEntry.boolVal true),
       ("venatus", BEntry.record ⟨1300, 500, false, "Corrupted Basin", "regular"⟩)]
      "venatus" =
      some (BEntry.record ⟨1300, 500, false, "Corrupted Basin", "regular"⟩) ∧
    (1000 < 1300 ∧ 1300 ≤ 1000 + 600) ∧
    (check_spawns FIXED_BOSSES true
      [("clemantis_notified", BEntry.boolVal true),
       ("venatus", BEntry.record ⟨1300, 500, false, "Corrupted Basin", "regular"⟩)]
      1000).2.count "venatus" = 0 ∧
    dictGet (check_spawns FIXED_BOSSES true
      [("clemantis_notified", BEntry.boolVal true),
       ("venatus", BEntry.record ⟨1300, 500, false, "Corrupted Basin", "regular"⟩)]
      1000).1 "venatus" =
      some (BEntry.record ⟨1300, 500, false, "Corrupted Basin", "regular"⟩) := by
  refine ⟨by decide, by decide, by decide, by decide⟩

/-- C4 (amended): the exactly-once dedup holds on a sentinel-free `boss_data`
(no fixed-schedule boss notified, so no tick-aborting boolean present): for a
regular boss whose stored occurrence is strictly inside the 10-minute lead
window with the flag down, one tick (with a working sink) delivers exactly
one alert for that boss and raises its flag; any second consecutive tick
delivers zero further alerts for it (in particular any tick before the
occurrence passes).  With a sentinel present the tick can instead abort and
deliver nothing. -/
theorem C4_notify_exactly_once (cat : List (String × List Slot))
    (st : StateMap) (now : Nat) (name : String) (r : BossRec)
    (hc : cleanState st) (hn : (st.map Prod.fst).Nodup)
    (hg : dictGet st name = some (BEntry.record r))
    (ht : r.rtype = "regular") (hf : r.notified = false)
    (hw1 : now < r.spawn_time) (hw2 : r.spawn_time ≤ now + 600)
    (hcat : ∀ c ∈ cat, c.1 ≠ name ∧ c.1 ++ "_notified" ≠ name) :
    (check_spawns cat true st now).2.count name = 1 ∧
    dictGet (check_spawns cat true st now).1 name =
      some (BEntry.record { r with notified := true }) ∧
    ∀ now2 : Nat,
      ((check_spawns cat true (check_spawns cat true st now).1 now2).2).count name
        = 0 := by
  have hA : cleanState (st.map (fun kv => (kv.1, bStep true now kv.2))) :=
    cleanState_map (fun r0 => ⟨regStep true now r0, rfl⟩) hc
  obtain ⟨tl, htl, hbool, hkeys⟩ :=
    fixedPass_append cat (st.map (fun kv => (kv.1, bStep true now kv.2))) []
      hA (by intro kv h; simp at h)
  rw [List.append_nil] at htl
  have hrun : check_spawns cat true st now =
      ((if tl.isEmpty then
          fixedResetPass now
            ((st.map (fun kv => (kv.1, bStep true now kv.2))).map
              (fun kv => (kv.1, bResetStep now kv.2)) ++ tl) cat
        else (st.map (fun kv => (kv.1, bStep true now kv.2))).map
              (fun kv => (kv.1, bResetStep now kv.2)) ++ tl),
       st.filterMap (fun kv => if sendsFor true now kv.2 then some kv.1 else none) ++
         (fixedPass true now (st.map (fun kv => (kv.1, bStep true now kv.2))) cat).2) := by
    simp only [check_spawns, regularPass_clean hc, Bool.false_eq_true, if_false]
    rw [htl, regResetPass_split now _ tl hA hbool]
    cases hemp : tl.isEmpty with
    | true => simp [hemp]
    | false => simp [hemp]
  have hregstep : regStep true now r = { r with notified := true } := by
    unfold regStep
    rw [if_pos ⟨ht, hw1, hw2, hf, rfl⟩]
  have hget1 : dictGet (st.map (fun kv => (kv.1, bStep true now kv.2))) name =
      some (BEntry.record { r with notified := true }) := by
    rw [dictGet_map, hg]
    simp [bStep, hregstep]
  have hrr : rrStep now { r with notified := true } = { r with notified := true } := by
    unfold rrStep
    rw [if_neg]
    intro hcc
    have hlt : r.spawn_time < now := hcc.2
    omega
  have hget2 : dictGet ((st.map (fun kv => (kv.1, bStep true now kv.2))).map
      (fun kv => (kv.1, bResetStep now kv.2))) name =
      some (BEntry.record { r with notified := true }) := by
    rw [dictGet_map, hget1]
    simp [bResetStep, hrr]
  have hmem1 : name ∈ st.filterMap
      (fun kv => if sendsFor true now kv.2 then some kv.1 else none) :=
    List.mem_filterMap.mpr ⟨(name, BEntry.record r), mem_of_dictGet hg,
      by simp [sendsFor_true ht hw1 hw2 hf]⟩
  have hnodup1 : (st.filterMap
      (fun kv => if sendsFor true now kv.2 then some kv.1 else none)).Nodup :=
    (filterMap_keys_sublist st (fun kv => sendsFor true now kv.2)).nodup hn
  have hnot2 : name ∉ (fixedPass true now
      (st.map (fun kv => (kv.1, bStep true now kv.2))) cat).2 := by
    intro hmem
    obtain ⟨c, hcm, he⟩ := fixedPass_sends_mem cat _ hmem
    exact (hcat c hcm).1 he.symm
  refine ⟨?_, ?_, ?_⟩
  · rw [hrun]
    dsimp only
    rw [List.count_append, List.count_eq_one_of_mem hnodup1 hmem1,
      List.count_eq_zero.mpr hnot2]
  · rw [hrun]
    dsimp only
    by_cases hemp : tl.isEmpty = true
    · rw [if_pos hemp]
      rw [fixedResetPass_get_ne cat _ (fun c hm => (hcat c hm).2)]
      exact dictGet_append_left hget2
    · rw [if_neg hemp]
      exact dictGet_append_left hget2
  · intro now2
    have hbind : ∀ e, (name, e) ∈ (check_spawns cat true st now).1 →
        e = BEntry.record { r with notified := true } := by
      intro e he
      rw [hrun] at he
      dsimp only at he
      have hin : (name, e) ∈
          ((st.map (fun kv => (kv.1, bStep true now kv.2))).map
            (fun kv => (kv.1, bResetStep now kv.2)) ++ tl) := by
        by_cases hemp : tl.isEmpty = true
        · rw [if_pos hemp] at he
          rcases fixedResetPass_mem cat _ he with h1 | ⟨c, hm, he1, b2, hb2⟩
          · exact h1
          · exact absurd he1.symm ((hcat c hm).2)
        · rw [if_neg hemp] at he
          exact he
      rcases List.mem_append.mp hin with h1 | h1
      · obtain ⟨kv0, hm0, he0⟩ := List.mem_map.mp h1
        rw [Prod.mk.injEq] at he0
        obtain ⟨hk0, he0v⟩ := he0
        obtain ⟨kv1, hm1, he1⟩ := List.mem_map.mp hm0
        rw [Prod.mk.injEq] at he1
        obtain ⟨hk1, he1v⟩ := he1
        have hname : kv1.1 = name := by rw [← hk0, ← hk1]
        have hmm : (name, kv1.2) ∈ st := by
          rw [← hname]
          exact hm1
        have hv1 : kv1.2 = BEntry.record r := by
          have hgm := dictGet_of_mem_nodup hn hmm
          rw [hg] at hgm
          exact (Option.some.inj hgm).symm
        rw [← he0v, ← he1v, hv1]
        simp [bStep, bResetStep, hregstep, hrr]
      · obtain ⟨b0, hb0⟩ := hbool _ h1
        rcases hkeys _ h1 with h2 | ⟨c, hm, he2⟩
        · simp at h2
        · exact absurd he2.symm ((hcat c hm).2)
    have hnotreg : name ∉
        (regularPass true now2 (check_spawns cat true st now).1).2.1 := by
      intro hmem
      obtain ⟨rx, hmx, _, _, _, hfx, _⟩ := regularPass_sends_mem hmem
      have hrx := hbind (BEntry.record rx) hmx
      have : rx = { r with notified := true } := by
        exact BEntry.record.inj hrx
      rw [this] at hfx
      simp at hfx
    have hnotfix : ∀ st2 : StateMap, name ∉ (fixedPass true now2 st2 cat).2 := by
      intro st2 hmem
      obtain ⟨c, hcm, he⟩ := fixedPass_sends_mem cat st2 hmem
      exact (hcat c hcm).1 he.symm
    generalize hst4 : (check_spawns cat true st now).1 = st4 at hnotreg
    simp only [check_spawns]
    split
    · dsimp only
      exact List.count_eq_zero.mpr hnotreg
    · split
      · dsimp only
        rw [List.count_append, List.count_eq_zero.mpr hnotreg,
          List.count_eq_zero.mpr (hnotfix _)]
      · dsimp only
        rw [List.count_append, List.count_eq_zero.mpr hnotreg,
          List.count_eq_zero.mpr (hnotfix _)]

/-- Witness for C4: venatus killed, spawning at instant 1300; the tick at 1000
(5 minutes ahead) alerts exactly once, and the tick at 1030 re-alerts zero
times. -/
theorem C4_notify_exactly_once_witness :
    (check_spawns FIXED_BOSSES true
      [("venatus", BEntry.record ⟨1300, 500, false, "Corrupted Basin", "regular"⟩)]
      1000).2.count "venatus" = 1 ∧
    dictGet (check_spawns FIXED_BOSSES true
      [("venatus", BEntry.record ⟨1300, 500, false, "Corrupted Basin", "regular"⟩)]
      1000).1 "venatus" =
      some (BEntry.record ⟨1300, 500, true, "Corrupted Basin", "regular"⟩) ∧
    ((check_spawns FIXED_BOSSES true
      (check_spawns FIXED_BOSSES true
        [("venatus", BEntry.record ⟨1300, 500, false, "Corrupted Basin", "regular"⟩)]
        1000).1 1030).2).count "venatus" = 0 := by
  have h := C4_notify_exactly_once FIXED_BOSSES
    [("venatus", BEntry.record ⟨1300, 500, false, "Corrupted Basin", "regular"⟩)]
    1000 "venatus" ⟨1300, 500, false, "Corrupted Basin", "regular"⟩
    (by intro k b hh; simp at hh) (by decide)
    (by decide) rfl rfl (by decide) (by decide) (by decide)
  exact ⟨h.1, h.2.1, h.2.2 1030⟩

/-- The regular re-arm pass on a sentinel-free map: no abort, every dict
stepped. -/
theorem regResetPass_clean (now : Nat) (st : StateMap) (hc : cleanState st) :
    regResetPass now st =
      (st.map (fun kv => (kv.1, bResetStep now kv.2)), false) := by
  have h := regResetPass_split now st [] hc (by intro kv h; simp at h)
  simpa using h

theorem getFlag_bResetStep (now : Nat) (st : StateMap) (k : String) :
    getFlag (st.map (fun kv => (kv.1, bResetStep now kv.2))) k = getFlag st k := by
  unfold getFlag
  rw [dictGet_map]
  cases hga : dictGet st k with
  | none => rfl
  | some v =>
    cases v with
    | record r0 => rfl
    | boolVal b0 => rfl

/-- C5: a tick on which the notification send raises commits nothing: no boss
is alerted, the armed boss's dict is unchanged (its `notified` flag stays
false), every sentinel flag keeps its value, and the next tick with a working
sink (still inside the lead window) does deliver the alert. -/
theorem C5_failed_send_rolls_back (cat : List (String × List Slot))
    (hv : validCatalog cat)
    (st : StateMap) (now : Nat) (name : String) (r : BossRec)
    (hc : cleanState st)
    (hg : dictGet st name = some (BEntry.record r))
    (ht : r.rtype = "regular") (hf : r.notified = false)
    (hw1 : now < r.spawn_time) :
    (check_spawns cat false st now).2 = [] ∧
    dictGet (check_spawns cat false st now).1 name = some (BEntry.record r) ∧
    (∀ k2, getFlag (check_spawns cat false st now).1 k2 = getFlag st k2) ∧
    ∀ now2 : Nat, now2 < r.spawn_time → r.spawn_time ≤ now2 + 600 →
      name ∈ (check_spawns cat true (check_spawns cat false st now).1 now2).2 := by
  have hmapid : st.map (fun kv => (kv.1, bStep false now kv.2)) = st := by
    have h1 : st.map (fun kv => (kv.1, bStep false now kv.2)) =
        st.map (fun kv => kv) :=
      List.map_congr_left (fun kv _ => by rw [bStep_false])
    rw [h1]
    exact List.map_id _
  have hsends : st.filterMap
      (fun kv => if sendsFor false now kv.2 then some kv.1 else none) = [] := by
    rw [List.filterMap_eq_nil_iff]
    intro kv hm
    rw [sendsFor_false]
    simp
  have hrun : check_spawns cat false st now =
      (st.map (fun kv => (kv.1, bResetStep now kv.2)), []) := by
    simp only [check_spawns, regularPass_clean hc, Bool.false_eq_true, if_false]
    rw [hmapid, fixedPass_sendFail cat st]
    dsimp only
    rw [regResetPass_clean now st hc]
    simp only [Bool.false_eq_true, if_false]
    rw [fixedResetPass_id cat _ hv, hsends]
    simp
  have hrrid : rrStep now r = r := by
    unfold rrStep
    rw [if_neg]
    intro hcc
    omega
  refine ⟨by rw [hrun], ?_, ?_, ?_⟩
  · rw [hrun]
    dsimp only
    rw [dictGet_map, hg]
    simp [bResetStep, hrrid]
  · intro k2
    rw [hrun]
    dsimp only
    exact getFlag_bResetStep now st k2
  · intro now2 hww1 hww2
    have hc2 : cleanState (st.map (fun kv => (kv.1, bResetStep now kv.2))) :=
      cleanState_map (fun r0 => ⟨rrStep now r0, rfl⟩) hc
    rw [hrun]
    dsimp only
    simp only [check_spawns, regularPass_clean hc2, Bool.false_eq_true, if_false]
    have hmem : name ∈ (st.map (fun kv => (kv.1, bResetStep now kv.2))).filterMap
        (fun kv => if sendsFor true now2 kv.2 then some kv.1 else none) := by
      apply List.mem_filterMap.mpr
      refine ⟨(name, BEntry.record r), ?_, ?_⟩
      · apply mem_of_dictGet
        rw [dictGet_map, hg]
        simp [bResetStep, hrrid]
      · simp [sendsFor_true ht hww1 hww2 hf]
    split
    · dsimp only
      exact List.mem_append_left _ hmem
    · dsimp only
      exact List.mem_append_left _ hmem

/-- Witness for C5: the send for venatus fails at instant 1000, nothing is
committed; the retry at instant 1030 (occurrence 1300 still inside the lead
window) delivers the alert. -/
theorem C5_failed_send_rolls_back_witness :
    (check_spawns FIXED_BOSSES false
      [("venatus", BEntry.record ⟨1300, 500, false, "Corrupted Basin", "regular"⟩)]
      1000).2 = [] ∧
    dictGet (check_spawns FIXED_BOSSES false
      [("venatus", BEntry.record ⟨1300, 500, false, "Corrupted Basin", "regular"⟩)]
      1000).1 "venatus" =
      some (BEntry.record ⟨1300, 500, false, "Corrupted Basin", "regular"⟩) ∧
    getFlag (check_spawns FIXED_BOSSES false
      [("venatus", BEntry.record ⟨1300, 500, false, "Corrupted Basin", "regular"⟩)]
      1000).1 "clemantis_notified" =
      getFlag [("venatus", BEntry.record ⟨1300, 500, false, "Corrupted Basin", "regular"⟩)]
        "clemantis_notified" ∧
    "venatus" ∈ (check_spawns FIXED_BOSSES true
      (check_spawns FIXED_BOSSES false
        [("venatus", BEntry.record ⟨1300, 500, false, "Corrupted Basin", "regular"⟩)]
        1000).1 1030).2 := by
  have h := C5_failed_send_rolls_back FIXED_BOSSES (by unfold validCatalog; decide)
    [("venatus", BEntry.record ⟨1300, 500, false, "Corrupted Basin", "regular"⟩)]
    1000 "venatus" ⟨1300, 500, false, "Corrupted Basin", "regular"⟩
    (by intro k b hh; simp at hh) (by decide) rfl rfl (by decide)
  exact ⟨h.1, h.2.1, h.2.2.1 "clemantis_notified", h.2.2.2 1030 (by decide) (by decide)⟩

/-- The time-only branch of `parse_manual_time` (src/main.py lines 270-276),
for the `%H:%M` / `%H:%M:%S` formats: the parsed time of day `t` (seconds) is
combined with `now`'s calendar date and localized (fixed-offset zone, so plain
arithmetic); then the guard `localized_dt > current_time and (current_time -
localized_dt) > timedelta(hours=12)` subtracts one day.  The result is a
signed instant since the shift could cross the epoch. -/
def parse_manual_time_timeonly (t now : Nat) : Int :=
  let dt : Int := (now / 86400 : Nat) * 86400 + t
  if dt > (now : Int) ∧ (now : Int) - dt > 43200 then dt - 86400 else dt

/-- C2 (code bug): the shift guard is contradictory — when `localized_dt >
current_time`, the difference `current_time - localized_dt` is negative and
never exceeds 12 hours — so the parser NEVER shifts a bare time to the
previous day.  At the spec's own example (now = 2024-01-15T02:00, which is
day 19738 of the epoch calendar, input "14:30" = 52200s) the result is
today's 14:30, which lies 12.5 hours in the future, instead of the previous
day's 14:30 the claim requires. -/
theorem C2_timeonly_never_shifts :
    (∀ t now : Nat, parse_manual_time_timeonly t now =
      ((now / 86400 * 86400 + t : Nat) : Int)) ∧
    parse_manual_time_timeonly 52200 (19738 * 86400 + 7200) =
      19738 * 86400 + 52200 ∧
    (19738 * 86400 + 7200 : Int) + 12 * 3600 < 19738 * 86400 + 52200 := by
  have hgen : ∀ t now : Nat, parse_manual_time_timeonly t now =
      ((now / 86400 * 86400 + t : Nat) : Int) := by
    intro t now
    unfold parse_manual_time_timeonly
    rw [if_neg]
    · push_cast
      ring
    · intro hcc
      omega
  refine ⟨hgen, ?_, by norm_num⟩
  rw [hgen]
  norm_num

/-- A calendar datetime in the program's single fixed-offset timezone, the
shape Python's `datetime` takes in this program (microseconds included). -/
structure DateTime where
  year : Nat
  month : Nat
  day : Nat
  hour : Nat
  minute : Nat
  second : Nat
  usec : Nat
deriving DecidableEq, Repr

/-- Days from 1970-01-01 to the given civil date (standard civil-calendar
day-number arithmetic), used to compare calendar datetimes as instants. -/
def daysFromCivil (y m d : Nat) : Int :=
  let y2 : Nat := if m ≤ 2 then y - 1 else y
  let era : Nat := y2 / 400
  let yoe : Nat := y2 - era * 400
  let mp : Nat := if m > 2 then m - 3 else m + 9
  let doy : Nat := (153 * mp + 2) / 5 + d - 1
  let doe : Nat := yoe * 365 + yoe / 4 - yoe / 100 + doy
  (era : Int) * 146097 + (doe : Int) - 719468

/-- A calendar datetime as a signed instant (seconds, same fixed offset). -/
def toInstant (dt : DateTime) : Int :=
  daysFromCivil dt.year dt.month dt.day * 86400 +
    dt.hour * 3600 + dt.minute * 60 + dt.second

/-- The dated branch of `parse_manual_time` (src/main.py lines 277-281) for
the `%m/%d %H:%M` format: `strptime` leaves the year at its default 1900, and
the `dt.year == 1900` check replaces it with the current year.  No other
adjustment is performed before localizing. -/
def parse_manual_time_mmdd (mo d h mi : Nat) (nowYear : Nat) : DateTime :=
  let dt : DateTime := ⟨1900, mo, d, h, mi, 0, 0⟩
  if dt.year = 1900 then { dt with year := nowYear } else dt

/-- C6 counterexample: entering "12/31 23:00" with `now` = 2024-01-02T00:00
resolves to 2024-12-31T23:00 — more than 30 days (in fact almost a year)
ahead of `now` — and the year is NOT decremented to 2023 as the claim
requires: no 30-day look-ahead rule exists in the code. -/
theorem C6_counterexample :
    parse_manual_time_mmdd 12 31 23 0 2024 = ⟨2024, 12, 31, 23, 0, 0, 0⟩ ∧
    toInstant ⟨2024, 12, 31, 23, 0, 0, 0⟩ >
      toInstant ⟨2024, 1, 2, 0, 0, 0, 0⟩ + 30 * 86400 ∧
    (parse_manual_time_mmdd 12 31 23 0 2024).year ≠ 2023 := by
  refine ⟨by decide, by decide, by decide⟩

/-- C6 (amended): the `%m/%d %H:%M` branch defaults the year to `now`'s year
unconditionally; no year-boundary adjustment is made, however far ahead of
`now` the resulting instant lies. -/
theorem C6_mmdd_defaults_year (mo d h mi y : Nat) :
    parse_manual_time_mmdd mo d h mi y = ⟨y, mo, d, h, mi, 0, 0⟩ := by
  unfold parse_manual_time_mmdd
  simp

/-- First-match lookup in the `REGULAR_BOSSES` catalog
(`REGULAR_BOSSES[boss_name_lower]`). -/
def lookupRegular (name : String) : List (String × Nat × String) → Option (Nat × String)
  | [] => none
  | b :: bs => if b.1 = name then some b.2 else lookupRegular name bs

/-- The `boss_data` effect of `report_kill` / `report_kill_manual`
(src/main.py lines 412-450 and 452-494): for a known regular boss, overwrite
the boss's entry with a fresh dict whose spawn time is the kill instant plus
the boss's respawn hours; unknown and fixed bosses leave `boss_data`
untouched (the handler only replies and returns).  `killTime` is
`get_ph_time()` for `!kill`, or the parsed instant for `!killtime`. -/
def report_kill (st : StateMap) (name : String) (killTime : Nat) : StateMap :=
  match lookupRegular name REGULAR_BOSSES with
  | some (hours, loc) =>
    dictSet st name (BEntry.record
      { spawn_time := killTime + hours * 3600, kill_time := killTime,
        notified := false, location := loc, rtype := "regular" })
  | none => st

/-- C7: reporting a kill of a regular boss at instant `killTime` stores the
next occurrence at exactly `killTime + hours·3600` with the flag down, and a
second report overwrites the entire entry — spawn time, kill time, flag,
location, type all come from the second report (no merge with the first). -/
theorem C7_reset_overwrites (st : StateMap) (name : String) (t1 t2 : Nat)
    (hours : Nat) (loc : String)
    (hl : lookupRegular name REGULAR_BOSSES = some (hours, loc)) :
    dictGet (report_kill st name t1) name =
      some (BEntry.record ⟨t1 + hours * 3600, t1, false, loc, "regular"⟩) ∧
    dictGet (report_kill (report_kill st name t1) name t2) name =
      some (BEntry.record ⟨t2 + hours * 3600, t2, false, loc, "regular"⟩) := by
  unfold report_kill
  rw [hl]
  exact ⟨dictGet_dictSet_self _ _ _, dictGet_dictSet_self _ _ _⟩

/-- Witness for C7 at venatus (10 respawn hours): two successive reports at
instants 1000 and 5000. -/
theorem C7_reset_overwrites_witness :
    dictGet (report_kill [] "venatus" 1000) "venatus" =
      some (BEntry.record ⟨1000 + 10 * 3600, 1000, false, "Corrupted Basin", "regular"⟩) ∧
    dictGet (report_kill (report_kill [] "venatus" 1000) "venatus" 5000) "venatus" =
      some (BEntry.record ⟨5000 + 10 * 3600, 5000, false, "Corrupted Basin", "regular"⟩) :=
  C7_reset_overwrites [] "venatus" 1000 5000 10 "Corrupted Basin" (by decide)

/-- The ASCII digit character for `n` (0-9). -/
def digitChar (n : Nat) : Char := Char.ofNat (48 + n)

/-- The numeric value of an ASCII digit character. -/
def digitVal (c : Char) : Nat := c.toNat - 48

def isDig (c : Char) : Bool := decide (48 ≤ c.toNat ∧ c.toNat ≤ 57)

/-- Zero-padded two-digit decimal rendering. -/
def pad2 (n : Nat) : List Char := [digitChar (n / 10), digitChar (n % 10)]

/-- Zero-padded four-digit decimal rendering. -/
def pad4 (n : Nat) : List Char :=
  [digitChar (n / 1000), digitChar (n / 100 % 10), digitChar (n / 10 % 10),
   digitChar (n % 10)]

/-- Zero-padded six-digit decimal rendering. -/
def pad6 (n : Nat) : List Char :=
  [digitChar (n / 100000), digitChar (n / 10000 % 10), digitChar (n / 1000 % 10),
   digitChar (n / 100 % 10), digitChar (n / 10 % 10), digitChar (n % 10)]

/-- Python `datetime.isoformat()` of an aware datetime in the program's +08:00 zone:
`YYYY-MM-DDTHH:MM:SS[.ffffff]+08:00`, the fractional part omitted when the
microseconds are zero. -/
def isoformat (d : DateTime) : List Char :=
  pad4 d.year ++ '-' :: pad2 d.month ++ '-' :: pad2 d.day ++
  'T' :: pad2 d.hour ++ ':' :: pad2 d.minute ++ ':' :: pad2 d.second ++
  (if d.usec = 0 then [] else '.' :: pad6 d.usec) ++
  ['+', '0', '8', ':', '0', '0']

def parse2 (a b : Char) : Option Nat :=
  if isDig a && isDig b then some (digitVal a * 10 + digitVal b) else none

def parse4 (a b c d : Char) : Option Nat :=
  if isDig a && isDig b && isDig c && isDig d then
    some (digitVal a * 1000 + digitVal b * 100 + digitVal c * 10 + digitVal d)
  else none

def parse6 (a b c d e f : Char) : Option Nat :=
  if isDig a && isDig b && isDig c && isDig d && isDig e && isDig f then
    some (digitVal a * 100000 + digitVal b * 10000 + digitVal c * 1000 +
      digitVal d * 100 + digitVal e * 10 + digitVal f)
  else none

/-- The tail after the seconds field: either the bare `+08:00` offset, or a
6-digit fraction then the offset.  Returns the microseconds. -/
def parseFracOffset : List Char → Option Nat
  | ['+', '0', '8', ':', '0', '0'] => some 0
  | ['.', u1, u2, u3, u4, u5, u6, '+', '0', '8', ':', '0', '0'] =>
    parse6 u1 u2 u3 u4 u5 u6
  | _ => none

/-- Python `datetime.fromisoformat` on the shapes `isoformat` emits: fixed-position
digit fields around the literal separators, with field ranges validated (an
out-of-range field makes the `datetime` constructor raise). -/
def fromisoformat : List Char → Option DateTime
  | y1 :: y2 :: y3 :: y4 :: '-' :: m1 :: m2 :: '-' :: d1 :: d2 ::
      'T' :: h1 :: h2 :: ':' :: n1 :: n2 :: ':' :: s1 :: s2 :: rest =>
    match parse4 y1 y2 y3 y4, parse2 m1 m2, parse2 d1 d2, parse2 h1 h2,
        parse2 n1 n2, parse2 s1 s2, parseFracOffset rest with
    | some y, some mo, some da, some ho, some mi, some se, some us =>
      if 1 ≤ mo ∧ mo ≤ 12 ∧ 1 ≤ da ∧ da ≤ 31 ∧ ho ≤ 23 ∧ mi ≤ 59 ∧ se ≤ 59 then
        some ⟨y, mo, da, ho, mi, se, us⟩
      else none
    | _, _, _, _, _, _, _ => none
  | _ => none

/-- Field ranges of a real datetime value (what Python's constructor
enforces, with the per-month day bound relaxed to 31). -/
def dtValid (d : DateTime) : Bool :=
  decide (d.year ≤ 9999 ∧ 1 ≤ d.month ∧ d.month ≤ 12 ∧ 1 ≤ d.day ∧
    d.day ≤ 31 ∧ d.hour ≤ 23 ∧ d.minute ≤ 59 ∧ d.second ≤ 59 ∧
    d.usec ≤ 999999)

theorem digitChar_spec (n : Nat) (h : n < 10) :
    isDig (digitChar n) = true ∧ digitVal (digitChar n) = n := by
  interval_cases n <;> exact ⟨by decide, by decide⟩

theorem parse2_pad2 (n : Nat) (h : n < 100) :
    parse2 (digitChar (n / 10)) (digitChar (n % 10)) = some n := by
  have h1 := digitChar_spec (n / 10) (by omega)
  have h2 := digitChar_spec (n % 10) (by omega)
  unfold parse2
  rw [if_pos (by rw [h1.1, h2.1]; rfl)]
  rw [h1.2, h2.2]
  congr 1
  omega

theorem parse4_pad4 (n : Nat) (h : n < 10000) :
    parse4 (digitChar (n / 1000)) (digitChar (n / 100 % 10))
      (digitChar (n / 10 % 10)) (digitChar (n % 10)) = some n := by
  have h1 := digitChar_spec (n / 1000) (by omega)
  have h2 := digitChar_spec (n / 100 % 10) (by omega)
  have h3 := digitChar_spec (n / 10 % 10) (by omega)
  have h4 := digitChar_spec (n % 10) (by omega)
  unfold parse4
  rw [if_pos (by rw [h1.1, h2.1, h3.1, h4.1]; rfl)]
  rw [h1.2, h2.2, h3.2, h4.2]
  congr 1
  omega

theorem parse6_pad6 (n : Nat) (h : n < 1000000) :
    parse6 (digitChar (n / 100000)) (digitChar (n / 10000 % 10))
      (digitChar (n / 1000 % 10)) (digitChar (n / 100 % 10))
      (digitChar (n / 10 % 10)) (digitChar (n % 10)) = some n := by
  have h1 := digitChar_spec (n / 100000) (by omega)
  have h2 := digitChar_spec (n / 10000 % 10) (by omega)
  have h3 := digitChar_spec (n / 1000 % 10) (by omega)
  have h4 := digitChar_spec (n / 100 % 10) (by omega)
  have h5 := digitChar_spec (n / 10 % 10) (by omega)
  have h6 := digitChar_spec (n % 10) (by omega)
  unfold parse6
  rw [if_pos (by rw [h1.1, h2.1, h3.1, h4.1, h5.1, h6.1]; rfl)]
  rw [h1.2, h2.2, h3.2, h4.2, h5.2, h6.2]
  congr 1
  omega

/-- Serializing a datetime with `isoformat` and parsing it back with
`fromisoformat` restores it exactly (hence to the second). -/
theorem fromisoformat_isoformat (d : DateTime) (hv : dtValid d = true) :
    fromisoformat (isoformat d) = some d := by
  obtain ⟨y, mo, da, ho, mi, se, us⟩ := d
  rw [dtValid, decide_eq_true_iff] at hv
  dsimp only at hv
  obtain ⟨hy, hm1, hm2, hd1, hd2, hh, hmi, hs, hu⟩ := hv
  by_cases hus : us = 0
  · subst hus
    have hiso : isoformat ⟨y, mo, da, ho, mi, se, 0⟩ =
        [digitChar (y / 1000), digitChar (y / 100 % 10), digitChar (y / 10 % 10),
         digitChar (y % 10), '-', digitChar (mo / 10), digitChar (mo % 10), '-',
         digitChar (da / 10), digitChar (da % 10), 'T',
         digitChar (ho / 10), digitChar (ho % 10), ':',
         digitChar (mi / 10), digitChar (mi % 10), ':',
         digitChar (se / 10), digitChar (se % 10),
         '+', '0', '8', ':', '0', '0'] := by
      simp [isoformat, pad4, pad2]
    rw [hiso]
    simp only [fromisoformat, parseFracOffset]
    rw [parse4_pad4 y (by omega), parse2_pad2 mo (by omega),
      parse2_pad2 da (by omega), parse2_pad2 ho (by omega),
      parse2_pad2 mi (by omega), parse2_pad2 se (by omega)]
    dsimp only
    rw [if_pos ⟨hm1, hm2, hd1, hd2, hh, hmi, hs⟩]
  · have hiso : isoformat ⟨y, mo, da, ho, mi, se, us⟩ =
        [digitChar (y / 1000), digitChar (y / 100 % 10), digitChar (y / 10 % 10),
         digitChar (y % 10), '-', digitChar (mo / 10), digitChar (mo % 10), '-',
         digitChar (da / 10), digitChar (da % 10), 'T',
         digitChar (ho / 10), digitChar (ho % 10), ':',
         digitChar (mi / 10), digitChar (mi % 10), ':',
         digitChar (se / 10), digitChar (se % 10), '.',
         digitChar (us / 100000), digitChar (us / 10000 % 10),
         digitChar (us / 1000 % 10), digitChar (us / 100 % 10),
         digitChar (us / 10 % 10), digitChar (us % 10),
         '+', '0', '8', ':', '0', '0'] := by
      simp [isoformat, pad4, pad2, pad6, hus]
    rw [hiso]
    simp only [fromisoformat, parseFracOffset]
    rw [parse4_pad4 y (by omega), parse2_pad2 mo (by omega),
      parse2_pad2 da (by omega), parse2_pad2 ho (by omega),
      parse2_pad2 mi (by omega), parse2_pad2 se (by omega),
      parse6_pad6 us (by omega)]
    dsimp only
    rw [if_pos ⟨hm1, hm2, hd1, hd2, hh, hmi, hs⟩]

/-- A value inside a boss dict, as the persistence adapter sees it: a
`datetime`, a string, or a boolean. -/
inductive PyVal where
  | dt (d : DateTime)
  | str (s : List Char)
  | boolV (b : Bool)
deriving DecidableEq, Repr

/-- One field through the save loop (src/main.py lines 65-69):
`isinstance(value, datetime)` values are replaced by `value.isoformat()`, all
other values are stored unchanged. -/
def saveVal : PyVal → PyVal
  | PyVal.dt d => PyVal.str (isoformat d)
  | v => v

/-- One field through the load loop (src/main.py lines 93-97): under the keys
`spawn_time` / `kill_time` a string value is parsed back with
`datetime.fromisoformat` (a failure raises, modelled `none`); every other
value is taken unchanged. -/
def loadVal (k : String) (v : PyVal) : Option PyVal :=
  if k = "spawn_time" ∨ k = "kill_time" then
    match v with
    | PyVal.str s => (fromisoformat s).map PyVal.dt
    | v => some v
  else some v

/-- The save loop over one boss dict. -/
def saveEntryFields (fs : List (String × PyVal)) : List (String × PyVal) :=
  fs.map (fun kv => (kv.1, saveVal kv.2))

/-- The load loop over one boss dict; `none` models the raised exception. -/
def loadEntryFields : List (String × PyVal) → Option (List (String × PyVal))
  | [] => some []
  | (k, v) :: rest =>
    match loadVal k v, loadEntryFields rest with
    | some v2, some tl => some ((k, v2) :: tl)
    | _, _ => none

/-- A `boss_data` value as the persistence adapter sees it: either a boss
dict of fields, or one of the bare sentinel booleans stored under the
`<boss>_notified` keys. -/
inductive PEntry where
  | dict (fs : List (String × PyVal))
  | boolV (b : Bool)
deriving DecidableEq, Repr

/-- The serialization loop of `save_boss_data` (src/main.py lines 62-69):
walks `boss_data.items()` and `data.items()` per boss; a bare boolean value
has no `.items()`, raising `AttributeError` (modelled `none`). -/
def serializeData : List (String × PEntry) →
    Option (List (String × List (String × PyVal)))
  | [] => some []
  | (_, PEntry.boolV _) :: _ => none
  | (k, PEntry.dict fs) :: rest =>
    (serializeData rest).map (fun tl => (k, saveEntryFields fs) :: tl)

/-- The function `save_boss_data` (src/main.py lines 55-79): False when not connected;
the serialization exception is caught and yields False; otherwise the
document is replaced and `result.acknowledged` is returned. -/
def save_boss_data (connected ack : Bool)
    (st : List (String × PEntry)) : Bool :=
  if connected = false then false
  else
    match serializeData st with
    | none => false
    | some _ => ack

/-- The deserialization loop of `load_boss_data` (src/main.py lines 90-97):
each stored boss is a dict of fields; any exception makes the whole load
return `{}` (modelled `none`). -/
def loadData : List (String × List (String × PyVal)) →
    Option (List (String × PEntry))
  | [] => some []
  | (k, fs) :: rest =>
    match loadEntryFields fs, loadData rest with
    | some fs2, some tl => some ((k, PEntry.dict fs2) :: tl)
    | _, _ => none

/-- A well-formed boss-dict field as the program writes them: the instant
keys `spawn_time` / `kill_time` hold valid datetimes; datetimes appear under
no other key (they would be stringified but never parsed back) and strings
never sit under the instant keys (they would be re-parsed as dates). -/
def wfField (k : String) (v : PyVal) : Bool :=
  match v with
  | PyVal.dt d => decide (k = "spawn_time" ∨ k = "kill_time") && dtValid d
  | PyVal.str _ => !decide (k = "spawn_time" ∨ k = "kill_time")
  | PyVal.boolV _ => true

def wfEntry (fs : List (String × PyVal)) : Bool :=
  fs.all (fun kv => wfField kv.1 kv.2)

/-- A well-formed `boss_data` for persistence: every value a well-formed boss
dict (in particular no sentinel booleans, which would fail the save). -/
def wfState (st : List (String × PEntry)) : Bool :=
  st.all (fun kv => match kv.2 with
    | PEntry.dict fs => wfEntry fs
    | PEntry.boolV _ => false)

theorem loadVal_saveVal (k : String) (v : PyVal) (h : wfField k v = true) :
    loadVal k (saveVal v) = some v := by
  cases v with
  | dt d =>
    rw [wfField, Bool.and_eq_true] at h
    obtain ⟨hk, hvd⟩ := h
    rw [decide_eq_true_iff] at hk
    show loadVal k (PyVal.str (isoformat d)) = some (PyVal.dt d)
    unfold loadVal
    rw [if_pos hk]
    dsimp only
    rw [show fromisoformat (isoformat d) = some d from fromisoformat_isoformat d hvd]
    rfl
  | str s =>
    rw [wfField, Bool.not_eq_eq_eq_not] at h
    have hk : ¬(k = "spawn_time" ∨ k = "kill_time") := by
      intro hc
      rw [decide_eq_true hc] at h
      exact absurd h (by simp)
    show loadVal k (PyVal.str s) = some (PyVal.str s)
    unfold loadVal
    rw [if_neg hk]
  | boolV b =>
    show loadVal k (PyVal.boolV b) = some (PyVal.boolV b)
    unfold loadVal
    split
    · rfl
    · rfl

theorem loadEntryFields_save (fs : List (String × PyVal))
    (h : wfEntry fs = true) :
    loadEntryFields (saveEntryFields fs) = some fs := by
  induction fs with
  | nil => rfl
  | cons kv rest ih =>
    obtain ⟨k, v⟩ := kv
    rw [wfEntry, List.all_cons, Bool.and_eq_true] at h
    obtain ⟨h1, h2⟩ := h
    have ihr := ih h2
    rw [saveEntryFields] at ihr ⊢
    simp only [List.map_cons, loadEntryFields]
    rw [loadVal_saveVal k v h1, ihr]

/-- C8: on a well-formed `boss_data`, `save_boss_data`'s serialization
succeeds and `load_boss_data`'s deserialization of the stored document is the
identity — every field, in particular the `spawn_time` and `kill_time`
instants, comes back equal to the original (exactly, hence to the second). -/
theorem C8_save_load_roundtrip (st : List (String × PEntry))
    (h : wfState st = true) :
    ∃ doc, serializeData st = some doc ∧ loadData doc = some st := by
  induction st with
  | nil => exact ⟨[], rfl, rfl⟩
  | cons kv rest ih =>
    obtain ⟨k, e⟩ := kv
    rw [wfState, List.all_cons, Bool.and_eq_true] at h
    obtain ⟨h1, h2⟩ := h
    cases e with
    | boolV b => exact absurd h1 (by simp)
    | dict fs =>
      obtain ⟨doc, hd1, hd2⟩ := ih h2
      refine ⟨(k, saveEntryFields fs) :: doc, ?_, ?_⟩
      · rw [serializeData, hd1]
        rfl
      · rw [loadData, loadEntryFields_save fs h1, hd2]

/-- Witness for C8: a realistic venatus record (instants with and without
microseconds, flag, location and type strings) survives the save/load round
trip unchanged. -/
theorem C8_save_load_roundtrip_witness :
    ∃ doc, serializeData [("venatus", PEntry.dict
      [("spawn_time", PyVal.dt ⟨2024, 1, 15, 14, 30, 5, 123456⟩),
       ("kill_time", PyVal.dt ⟨2024, 1, 15, 4, 30, 5, 0⟩),
       ("notified", PyVal.boolV false),
       ("location", PyVal.str ("Corrupted Basin".toList)),
       ("type", PyVal.str ("regular".toList))])] = some doc ∧
    loadData doc = some [("venatus", PEntry.dict
      [("spawn_time", PyVal.dt ⟨2024, 1, 15, 14, 30, 5, 123456⟩),
       ("kill_time", PyVal.dt ⟨2024, 1, 15, 4, 30, 5, 0⟩),
       ("notified", PyVal.boolV false),
       ("location", PyVal.str ("Corrupted Basin".toList)),
       ("type", PyVal.str ("regular".toList))])] :=
  C8_save_load_roundtrip _ (by decide)

theorem serializeData_none {st : List (String × PEntry)} {k : String}
    {b : Bool} (h : (k, PEntry.boolV b) ∈ st) : serializeData st = none := by
  induction h with
  | head rest => rfl
  | tail hd hmem ih =>
    obtain ⟨k0, e0⟩ := hd
    cases e0 with
    | boolV b0 => rfl
    | dict fs =>
      rw [serializeData, ih]
      rfl

/-- C9: whenever `boss_data` contains any sentinel entry (a bare boolean
value, as stored under the `<boss>_notified` keys), `save_boss_data` returns
False — the serialization loop calls `.items()` on the boolean, the
`AttributeError` lands in the handler, and persisting the entire data set
fails regardless of connection state or write acknowledgement. -/
theorem C9_sentinel_fails_save (connected ack : Bool)
    (st : List (String × PEntry)) (k : String) (b : Bool)
    (h : (k, PEntry.boolV b) ∈ st) :
    save_boss_data connected ack st = false := by
  unfold save_boss_data
  rw [serializeData_none h]
  cases connected
  · rfl
  · rfl

/-- Witness for C9: clemantis's sentinel `True` alongside a normal record
makes the save fail even when connected and acknowledged. -/
theorem C9_sentinel_fails_save_witness :
    save_boss_data true true
      [("venatus", PEntry.dict [("notified", PyVal.boolV false)]),
       ("clemantis_notified", PEntry.boolV true)] = false :=
  C9_sentinel_fails_save true true _ "clemantis_notified" true (by simp)
